import Mathlib

/-!
Verification of the JSON logging layer from `proxy/src/logging.rs`.

The definitions below are a shallow embedding of the event-formatting and
span-field-accumulation engine: the call-site registration computing the
skip mask of duplicated field indices (`regFields`, `registerCallsiteMask`),
the visitor cascade (`extractMessageGo`, `fieldsPresentGo`,
`serializeEventFieldsGo`, and the value coercions `spanRecordValue`,
`messageRecordValue`, `skipperMember`), the span walk with the extract
buffer (`serializeSpanFields`, `serializeSpans`, `extractSet`,
`serializeExtract`) and the top-level formatter (`format`).

JSON output is modelled as the ordered list of members produced by the
streaming serializer; a member whose key is `none` models a call to
`serialize_value` without a preceding `serialize_key`.
-/

namespace Logging

/-- JSON values as produced by the streaming serializer. Integer number
tokens (covering i64, u64 and raw 128-bit tokens) are collapsed into `num`.
An object is the ordered list of members written by the serializer; a
member with key `none` records a bare `serialize_value` with no key. -/
inductive Json where
  | null : Json
  | bool (b : Bool) : Json
  | num (n : Int) : Json
  | str (s : String) : Json
  | arr (elems : List Json) : Json
  | obj (members : List (Option String × Json)) : Json

/-- A typed field value as supplied to a `tracing::field::Visit` visitor.
The `debug` and `error` constructors carry the already-rendered `{:?}`
respectively `{}` text of the underlying value. Floating point values are
out of scope of the claims and omitted. -/
inductive FieldValue where
  | i64 (v : Int) : FieldValue
  | u64 (v : Nat) : FieldValue
  | i128 (v : Int) : FieldValue
  | u128 (v : Nat) : FieldValue
  | bool (b : Bool) : FieldValue
  | bytes (bs : List Nat) : FieldValue
  | str (s : String) : FieldValue
  | debug (s : String) : FieldValue
  | error (s : String) : FieldValue

/-- Fuel-driven decimal rendering, little helper for `natDec`. -/
def natDecGo : Nat → Nat → List Char
  | 0, _ => []
  | fuel + 1, n =>
    if n < 10 then [Char.ofNat (48 + n)]
    else natDecGo fuel (n / 10) ++ [Char.ofNat (48 + n % 10)]

/-- Decimal digits of a natural number, most significant first; models
Rust's `Display` for unsigned integers. -/
def natDec (n : Nat) : List Char := natDecGo (n + 1) n

/-- Decimal string of a natural number (Rust `format!("{n}")`). -/
def natDecStr (n : Nat) : String := String.mk (natDec n)

/-- Decimal string of an integer (Rust `Display` for signed integers). -/
def intDecStr (v : Int) : String :=
  if v < 0 then "-" ++ natDecStr (-v).toNat else natDecStr v.toNat

/-- Lower-case hex digit for a value below 16. -/
def hexDigit (n : Nat) : Char :=
  if n < 10 then Char.ofNat (48 + n) else Char.ofNat (87 + n)

/-- Lower-case hex rendering of one byte without zero padding, as produced
by Rust's `LowerHex` for `u8` under `{:x?}`. -/
def hexByte (n : Nat) : String :=
  if n < 16 then String.mk [hexDigit n]
  else String.mk [hexDigit (n / 16), hexDigit (n % 16)]

/-- Rust `format!("{value:x?}")` for a byte slice: bracketed, comma-space
separated, each byte in lower-case hex. -/
def bytesDebugHex (bs : List Nat) : String :=
  "[" ++ String.intercalate ", " (bs.map hexByte) ++ "]"

/-- Models `str::starts_with` on the embedded strings. -/
def strStartsWith (s p : String) : Bool := p.data.isPrefixOf s.data

/-- Value coercion of `SpanFieldsRecorder` (`logging.rs` 388-462), the
visitor that stores span fields as `serde_json::Value`s:
128-bit integers become numbers when they fit in 64 bits and decimal
strings otherwise; a byte slice becomes `serde_json::Value::from(&[u8])`,
which is a JSON array of the byte values. -/
def spanRecordValue : FieldValue → Json
  | .i64 v => .num v
  | .u64 v => .num v
  | .i128 v => if -(2 ^ 63) ≤ v ∧ v < 2 ^ 63 then .num v else .str (intDecStr v)
  | .u128 v => if v < 2 ^ 64 then .num v else .str (natDecStr v)
  | .bool b => .bool b
  | .bytes bs => .arr (bs.map (fun b => .num b))
  | .str s => .str s
  | .debug s => .str s
  | .error s => .str s

/-- Value written by `MessageFieldExtractor` (`logging.rs` 674-748) for the
accepted message field: all integers (including 128-bit ones) are passed
straight to the serializer as number tokens; a byte slice becomes the
`{:x?}` debug-hex string. -/
def messageRecordValue : FieldValue → Json
  | .i64 v => .num v
  | .u64 v => .num v
  | .i128 v => .num v
  | .u128 v => .num v
  | .bool b => .bool b
  | .bytes bs => .str (bytesDebugHex bs)
  | .str s => .str s
  | .debug s => .str s
  | .error s => .str s

/-- Member written by `MessageFieldSkipper` (`logging.rs` 824-902) for one
accepted event field. Every arm calls `serialize_entry(field.name(), ...)`
except `record_error`, which calls `serialize_value` alone and therefore
emits the value without a key. -/
def skipperMember (name : String) : FieldValue → Option String × Json
  | .i64 v => (some name, .num v)
  | .u64 v => (some name, .num v)
  | .i128 v => (some name, .num v)
  | .u128 v => (some name, .num v)
  | .bool b => (some name, .bool b)
  | .bytes bs => (some name, .str (bytesDebugHex bs))
  | .str s => (some name, .str s)
  | .debug s => (some name, .str s)
  | .error s => (none, .str s)

/-- `SkippedFieldIndices::push` (`logging.rs` 477-482):
`bits |= 1u64.checked_shl(index).expect(..)`. The `checked_shl` yields
`None` for a shift of 64 or more, so the `expect` panics; the panic is
modelled as `none`. -/
def pushOpt (bits index : Nat) : Option Nat :=
  if index < 64 then some (bits ||| (1 <<< index)) else none

/-- `SkippedFieldIndices::contains` for indices below 64 (the only domain
on which the Rust code does not panic). -/
def containsBit (bits index : Nat) : Bool := bits.testBit index

/-- `skipped_field_indices.is_some_and(|i| i.contains(index))`. -/
def fieldSkipped (mask : Option Nat) (index : Nat) : Bool :=
  match mask with
  | some bits => containsBit bits index
  | none => false

/-- The duplicate-detection loop of `register_callsite` (`logging.rs`
319-335). `seen` models the `HashMap<&str, usize>` of the most recent
index per field name, `k` is the index of the next field descriptor, and
`bits` the skip mask accumulated so far; a failed push (panic) is `none`. -/
def regFields (seen : String → Option Nat) (bits k : Nat) :
    List String → Option Nat
  | [] => some bits
  | n :: rest =>
    match seen n with
    | none => regFields (fun m => if m = n then some k else seen m) bits (k + 1) rest
    | some old =>
      match pushOpt bits old with
      | none => none
      | some b => regFields (fun m => if m = n then some k else seen m) b (k + 1) rest

/-- Skip mask computed by `register_callsite` for an event call site whose
field descriptors carry the given names (in declaration order, the index
of a field being its position). -/
def registerCallsiteMask (names : List String) : Option Nat :=
  regFields (fun _ => none) 0 0 names

/-- `tracing::subscriber::Interest`. -/
inductive Interest where
  | never : Interest
  | sometimes : Interest
  | always : Interest
deriving DecidableEq

/-- `JsonLoggingLayer::register_callsite` for an event call site
(`logging.rs` 312-344): computes the skip mask, stores it only when it is
non-empty, and returns `Interest::always()`; a panic inside `push` is
modelled as `none`. The second component is the mask later found by the
formatter's registry lookup. -/
def registerCallsite (names : List String) : Option (Interest × Option Nat) :=
  match registerCallsiteMask names with
  | none => none
  | some bits => some (.always, if bits = 0 then none else some bits)

/-- `MessageFieldExtractor::accept_field` minus the `state.is_none()`
first-hit test, which is expressed by the recursion of
`extractMessageGo`. -/
def msgAccept (mask : Option Nat) (name : String) (index : Nat) : Bool :=
  name == "message" && !(fieldSkipped mask index)

/-- The visit of `MessageFieldExtractor` over the event fields starting at
field index `k`: the first accepted field's value is serialized. -/
def extractMessageGo (mask : Option Nat) (k : Nat) :
    List (String × FieldValue) → Option Json
  | [] => none
  | (n, v) :: rest =>
    if msgAccept mask n k then some (messageRecordValue v)
    else extractMessageGo mask (k + 1) rest

/-- The serialized `message` member: first accepted field named
`"message"`, or the empty string when `into_serializer` finds no state
(`logging.rs` 655-662). -/
def extractMessage (mask : Option Nat) (fields : List (String × FieldValue)) : Json :=
  (extractMessageGo mask 0 fields).getD (.str "")

/-- The common filter of `FieldsPresent::record_debug` and
`MessageFieldSkipper::accept_field`: not skipped, not the message field,
not a `log.` meta field. -/
def fieldsAccept (mask : Option Nat) (name : String) (index : Nat) : Bool :=
  name != "message" && !(strStartsWith name "log.") && !(fieldSkipped mask index)

/-- The visit of `FieldsPresent` (`logging.rs` 754-768) from index `k`. -/
def fieldsPresentGo (mask : Option Nat) (k : Nat) :
    List (String × FieldValue) → Bool
  | [] => false
  | (n, _) :: rest => fieldsAccept mask n k || fieldsPresentGo mask (k + 1) rest

/-- Whether the `fields` subobject is emitted at all. -/
def fieldsPresent (mask : Option Nat) (fields : List (String × FieldValue)) : Bool :=
  fieldsPresentGo mask 0 fields

/-- The visit of `MessageFieldSkipper` over the event fields from index
`k`, producing the members of the `fields` subobject. -/
def serializeEventFieldsGo (mask : Option Nat) (k : Nat) :
    List (String × FieldValue) → List (Option String × Json)
  | [] => []
  | (n, v) :: rest =>
    if fieldsAccept mask n k then
      skipperMember n v :: serializeEventFieldsGo mask (k + 1) rest
    else serializeEventFieldsGo mask (k + 1) rest

/-- Members of the `fields` subobject (`SerializableEventFields`). -/
def serializeEventFields (mask : Option Nat) (fields : List (String × FieldValue)) :
    List (Option String × Json) :=
  serializeEventFieldsGo mask 0 fields

/-- One span of the current scope: its metadata name, the `CallsiteId`
found in the registry (`unwrap_or_default` gives 0 for an unknown call
site) and the contents of its `SpanFields` store, already coerced to
JSON values by `SpanFieldsRecorder`. -/
structure SpanData where
  name : String
  csId : Nat
  fields : List (String × Json)

/-- The JSON key of a span: `format_args!("{}#{}", name, cid)`
(`logging.rs` 939). -/
def spanKey (sp : SpanData) : String := sp.name ++ "#" ++ natDecStr sp.csId

/-- `ExtractedSpanFields`: fixed slots (one per configured extract name)
plus the touched flag. -/
structure ExtractState where
  slots : List (Option Json)
  touched : Bool

/-- `ExtractedSpanFields::set` (`logging.rs` 999-1006): when the name is a
configured extract key, overwrite its slot and mark the buffer touched. -/
def extractSet (names : List String) (st : ExtractState) (n : String) (v : Json) :
    ExtractState :=
  match names.findIdx? (fun m => m == n) with
  | some i => ⟨st.slots.set i (some v), true⟩
  | none => st

/-- `SerializableSpanFields::serialize` (`logging.rs` 961-982): emit each
stored field of one span and feed it to the extract buffer. -/
def serializeSpanFields (names : List String) (st : ExtractState) :
    List (String × Json) → List (String × Json) × ExtractState
  | [] => ([], st)
  | (n, v) :: rest =>
    let res := serializeSpanFields names (extractSet names st n v) rest
    ((n, v) :: res.1, res.2)

/-- `SerializableSpans::serialize` (`logging.rs` 917-950): walk the scope
root to leaf, emitting `"{name}#{cid}"` keys and the span field objects,
threading the extract buffer. -/
def serializeSpans (names : List String) (st : ExtractState) :
    List SpanData → List (String × Json) × ExtractState
  | [] => ([], st)
  | sp :: rest =>
    let fs := serializeSpanFields names st sp.fields
    let tail := serializeSpans names fs.2 rest
    ((spanKey sp, Json.obj (fs.1.map (fun kv => (some kv.1, kv.2)))) :: tail.1, tail.2)

/-- `ExtractedSpanFields::serialize` (`logging.rs` 1014-1031): emit the
populated slots in configured-name order. -/
def serializeExtract (names : List String) (slots : List (Option Json)) :
    List (String × Json) :=
  (names.zip slots).filterMap (fun p => p.2.map (fun v => (p.1, v)))

/-- Slot of the extract buffer corresponding to a name (the slot `set`
writes through `get_full`). -/
def slotVal (names : List String) (slots : List (Option Json)) (n : String) :
    Option Json :=
  match names.findIdx? (fun m => m == n) with
  | some i => slots.getD i none
  | none => none

/-- The `array::from_fn(|_| Option::default())` initial extract buffer. -/
def initialExtract (names : List String) : ExtractState :=
  ⟨names.map (fun _ => none), false⟩

/-- All inputs of one `EventFormatter::format` call: the pre-rendered
timestamp, the level string, the event's fields (in declaration order)
with the registered skip mask, the scope root to leaf, the configured
extract names, and the process / thread / task / source metadata. An
`Option` input is `none` when the corresponding source value is absent. -/
structure FormatInput where
  timestamp : String
  level : String
  eventFields : List (String × FieldValue)
  mask : Option Nat
  spans : List SpanData
  extractNames : List String
  pid : Nat
  tid : Nat
  threadName : Option String
  taskId : Option String
  target : String
  module : Option String
  file : Option String
  line : Option Nat
  traceId : Option String

/-- The span subobject members together with the final extract buffer. -/
def spansAndExtract (inp : FormatInput) : List (String × Json) × ExtractState :=
  serializeSpans inp.extractNames (initialExtract inp.extractNames) inp.spans

/-- Wrap a keyed member list as a JSON object. -/
def objOf (l : List (String × Json)) : Json :=
  .obj (l.map (fun kv => (some kv.1, kv.2)))

/-- Members 1-3 of the log line: timestamp, level and extracted message. -/
def fmtHead (inp : FormatInput) : List (String × Json) :=
  [("timestamp", Json.str inp.timestamp),
   ("level", Json.str inp.level),
   ("message", extractMessage inp.mask inp.eventFields)]

/-- The `fields` member, present only when `FieldsPresent` fired. -/
def fmtFields (inp : FormatInput) : List (String × Json) :=
  if fieldsPresent inp.mask inp.eventFields then
    [("fields", Json.obj (serializeEventFields inp.mask inp.eventFields))]
  else []

/-- The unconditional `spans` member. -/
def fmtSpans (inp : FormatInput) : List (String × Json) :=
  [("spans", objOf (spansAndExtract inp).1)]

/-- The `process_id` member, skipped for pid 1. -/
def fmtPid (inp : FormatInput) : List (String × Json) :=
  if inp.pid ≠ 1 then [("process_id", Json.num inp.pid)] else []

/-- The unconditional `thread_id` member. -/
def fmtTid (inp : FormatInput) : List (String × Json) :=
  [("thread_id", Json.num inp.tid)]

/-- The `thread_name` member, skipped when empty or the tokio default. -/
def fmtThreadName (inp : FormatInput) : List (String × Json) :=
  match inp.threadName with
  | some tn =>
    if tn ≠ "" ∧ tn ≠ "tokio-runtime-worker" then [("thread_name", Json.str tn)]
    else []
  | none => []

/-- The `task_id` member when a tokio task is active. -/
def fmtTaskId (inp : FormatInput) : List (String × Json) :=
  match inp.taskId with
  | some t => [("task_id", Json.str t)]
  | none => []

/-- The unconditional `target` member. -/
def fmtTarget (inp : FormatInput) : List (String × Json) :=
  [("target", Json.str inp.target)]

/-- The `module` member, skipped when equal to the target. -/
def fmtModule (inp : FormatInput) : List (String × Json) :=
  match inp.module with
  | some m => if m ≠ inp.target then [("module", Json.str m)] else []
  | none => []

/-- The `src` member: `file:line`, or just the file without a line. -/
def fmtSrc (inp : FormatInput) : List (String × Json) :=
  match inp.file with
  | some f =>
    match inp.line with
    | some l => [("src", Json.str (f ++ ":" ++ natDecStr l))]
    | none => [("src", Json.str f)]
  | none => []

/-- The `trace_id` member when a valid trace context is active. -/
def fmtTraceId (inp : FormatInput) : List (String × Json) :=
  match inp.traceId with
  | some t => [("trace_id", Json.str t)]
  | none => []

/-- The `extract` member, present only when the extract buffer was
touched during the span walk. -/
def fmtExtract (inp : FormatInput) : List (String × Json) :=
  if (spansAndExtract inp).2.touched then
    [("extract", objOf (serializeExtract inp.extractNames (spansAndExtract inp).2.slots))]
  else []

/-- `EventFormatter::format` (`logging.rs` 518-634): the ordered members of
the top-level JSON object of one log line. -/
def format (inp : FormatInput) : List (String × Json) :=
  fmtHead inp ++ fmtFields inp ++ fmtSpans inp ++ fmtPid inp ++ fmtTid inp
  ++ fmtThreadName inp ++ fmtTaskId inp ++ fmtTarget inp ++ fmtModule inp
  ++ fmtSrc inp ++ fmtTraceId inp ++ fmtExtract inp

/-- The fixed key order of §4.5 of the specification. -/
def topLevelKeyOrder : List String :=
  ["timestamp", "level", "message", "fields", "spans", "process_id", "thread_id",
   "thread_name", "task_id", "target", "module", "src", "trace_id", "extract"]

end Logging

namespace Logging

/-! ### Decimal rendering: basic facts -/

theorem natDecGo_fuel (f₁ : Nat) : ∀ (f₂ n : Nat), n < f₁ → n < f₂ →
    natDecGo f₁ n = natDecGo f₂ n := by
  induction f₁ with
  | zero => intro f₂ n h₁ _; omega
  | succ g ih =>
    intro f₂ n h₁ h₂
    cases f₂ with
    | zero => omega
    | succ g₂ =>
      simp only [natDecGo]
      by_cases hn : n < 10
      · simp [hn]
      · have hdiv : n / 10 < n := Nat.div_lt_self (by omega) (by omega)
        simp only [hn, if_false]
        rw [ih g₂ (n / 10) (by omega) (by omega)]

theorem natDec_eq (n : Nat) : natDec n =
    if n < 10 then [Char.ofNat (48 + n)]
    else natDec (n / 10) ++ [Char.ofNat (48 + n % 10)] := by
  show natDecGo (n + 1) n = _
  by_cases hn : n < 10
  · simp [natDecGo, hn]
  · have hdiv : n / 10 < n := Nat.div_lt_self (by omega) (by omega)
    simp only [natDecGo, hn, if_false]
    rw [natDecGo_fuel n (n / 10 + 1) (n / 10) (by omega) (by omega)]
    rfl

theorem natDec_ne_nil (n : Nat) : natDec n ≠ [] := by
  rw [natDec_eq]
  by_cases hn : n < 10 <;> simp [hn]

theorem char_ofNat_digit_toNat : ∀ d, d < 10 → (Char.ofNat (48 + d)).toNat = 48 + d := by
  decide

theorem natDec_mem_digit (n : Nat) : ∀ c ∈ natDec n, 48 ≤ c.toNat ∧ c.toNat ≤ 57 := by
  induction n using Nat.strong_induction_on with
  | _ n ih =>
    intro c hc
    rw [natDec_eq] at hc
    by_cases hn : n < 10
    · simp only [hn, if_true, List.mem_singleton] at hc
      subst hc
      rw [char_ofNat_digit_toNat n hn]
      omega
    · simp only [hn, if_false, List.mem_append, List.mem_singleton] at hc
      rcases hc with hc | hc
      · exact ih (n / 10) (Nat.div_lt_self (by omega) (by omega)) c hc
      · subst hc
        rw [char_ofNat_digit_toNat (n % 10) (Nat.mod_lt n (by omega))]
        have := Nat.mod_lt n (show 0 < 10 by omega)
        omega

theorem hash_not_mem_natDec (n : Nat) : '#' ∉ natDec n := by
  intro h
  have := natDec_mem_digit n '#' h
  revert this
  decide

theorem natDec_inj : ∀ a b : Nat, natDec a = natDec b → a = b := by
  intro a
  induction a using Nat.strong_induction_on with
  | _ a ih =>
    intro b h
    by_cases ha : a < 10 <;> by_cases hb : b < 10
    · rw [natDec_eq a, natDec_eq b] at h
      simp only [ha, hb, if_true, List.cons.injEq] at h
      have := congrArg Char.toNat h.1
      rw [char_ofNat_digit_toNat a ha, char_ofNat_digit_toNat b hb] at this
      omega
    · rw [natDec_eq a, natDec_eq b] at h
      simp only [ha, hb, if_true, if_false] at h
      have hlen := congrArg List.length h
      have hne := natDec_ne_nil (b / 10)
      simp only [List.length_singleton, List.length_append] at hlen
      cases hcase : natDec (b / 10) with
      | nil => exact absurd hcase hne
      | cons x xs => rw [hcase] at hlen; simp at hlen
    · rw [natDec_eq a, natDec_eq b] at h
      simp only [ha, hb, if_true, if_false] at h
      have hlen := congrArg List.length h
      have hne := natDec_ne_nil (a / 10)
      simp only [List.length_singleton, List.length_append] at hlen
      cases hcase : natDec (a / 10) with
      | nil => exact absurd hcase hne
      | cons x xs => rw [hcase] at hlen; simp at hlen
    · rw [natDec_eq a, natDec_eq b] at h
      simp only [ha, hb, if_false] at h
      have hrev := congrArg List.reverse h
      simp only [List.reverse_append, List.reverse_cons, List.reverse_nil,
        List.nil_append, List.singleton_append, List.cons.injEq] at hrev
      have hmod : a % 10 = b % 10 := by
        have := congrArg Char.toNat hrev.1
        rw [char_ofNat_digit_toNat (a % 10) (Nat.mod_lt a (by omega)),
          char_ofNat_digit_toNat (b % 10) (Nat.mod_lt b (by omega))] at this
        omega
      have hdivs : natDec (a / 10) = natDec (b / 10) := by
        have := congrArg List.reverse hrev.2
        simpa using this
      have hdiv : a / 10 = b / 10 :=
        ih (a / 10) (Nat.div_lt_self (by omega) (by omega)) (b / 10) hdivs
      omega

/-! ### Separator splitting for span keys -/

theorem hashfree_append_inj :
    ∀ (r₁ : List Char) (r₂ t₁ t₂ : List Char), '#' ∉ r₁ → '#' ∉ r₂ →
      r₁ ++ '#' :: t₁ = r₂ ++ '#' :: t₂ → r₁ = r₂ ∧ t₁ = t₂ := by
  intro r₁
  induction r₁ with
  | nil =>
    intro r₂ t₁ t₂ _ h₂ h
    cases r₂ with
    | nil => simpa using h
    | cons c cs =>
      simp only [List.nil_append, List.cons_append, List.cons.injEq] at h
      obtain ⟨h1, -⟩ := h
      subst h1
      exact absurd (List.mem_cons_self _ _) h₂
  | cons c cs ih =>
    intro r₂ t₁ t₂ h₁ h₂ h
    cases r₂ with
    | nil =>
      simp only [List.cons_append, List.nil_append, List.cons.injEq] at h
      obtain ⟨h1, -⟩ := h
      subst h1
      exact absurd (List.mem_cons_self _ _) h₁
    | cons d ds =>
      simp only [List.cons_append, List.cons.injEq] at h
      have htail := ih ds t₁ t₂ (fun hm => h₁ (List.mem_cons_of_mem c hm))
        (fun hm => h₂ (List.mem_cons_of_mem d hm)) h.2
      exact ⟨by rw [h.1, htail.1], htail.2⟩

theorem spanKey_csId_inj (sp₁ sp₂ : SpanData) (h : spanKey sp₁ = spanKey sp₂) :
    sp₁.csId = sp₂.csId := by
  have hdata := congrArg String.data h
  simp only [spanKey, String.data_append] at hdata
  have hdata' : (natDec sp₁.csId).reverse ++ '#' :: sp₁.name.data.reverse =
      (natDec sp₂.csId).reverse ++ '#' :: sp₂.name.data.reverse := by
    have := congrArg List.reverse hdata
    simpa [natDecStr, List.reverse_append] using this
  have hsplit := hashfree_append_inj _ _ _ _
    (fun hm => hash_not_mem_natDec sp₁.csId (List.mem_reverse.mp hm))
    (fun hm => hash_not_mem_natDec sp₂.csId (List.mem_reverse.mp hm)) hdata'
  exact natDec_inj _ _ (List.reverse_injective hsplit.1)

theorem spanKeys_nodup : ∀ spans : List SpanData,
    (spans.map SpanData.csId).Nodup → (spans.map spanKey).Nodup := by
  intro spans
  induction spans with
  | nil => intro _; simp
  | cons sp rest ih =>
    intro h
    simp only [List.map_cons, List.nodup_cons] at h ⊢
    refine ⟨fun hmem => ?_, ih h.2⟩
    rcases List.mem_map.mp hmem with ⟨sp', hsp', hkey⟩
    exact h.1 (List.mem_map.mpr ⟨sp', hsp', (spanKey_csId_inj sp' sp hkey ▸ rfl)⟩)

theorem serializeSpans_fst (names : List String) :
    ∀ (spans : List SpanData) (st : ExtractState),
      ((serializeSpans names st spans).1).map Prod.fst = spans.map spanKey := by
  intro spans
  induction spans with
  | nil => intro st; rfl
  | cons sp rest ih => intro st; simp [serializeSpans, ih]

end Logging

namespace Logging

/-! ### Keys of the formatter chunks -/

theorem fmtHead_sub (inp : FormatInput) :
    ((fmtHead inp).map Prod.fst).Sublist ["timestamp", "level", "message"] := by
  rw [show (fmtHead inp).map Prod.fst = ["timestamp", "level", "message"] from rfl]

theorem fmtFields_sub (inp : FormatInput) :
    ((fmtFields inp).map Prod.fst).Sublist ["fields"] := by
  unfold fmtFields; split <;> simp

theorem fmtSpans_sub (inp : FormatInput) :
    ((fmtSpans inp).map Prod.fst).Sublist ["spans"] := by
  rw [show (fmtSpans inp).map Prod.fst = ["spans"] from rfl]

theorem fmtPid_sub (inp : FormatInput) :
    ((fmtPid inp).map Prod.fst).Sublist ["process_id"] := by
  unfold fmtPid; split <;> simp

theorem fmtTid_sub (inp : FormatInput) :
    ((fmtTid inp).map Prod.fst).Sublist ["thread_id"] := by
  rw [show (fmtTid inp).map Prod.fst = ["thread_id"] from rfl]

theorem fmtThreadName_sub (inp : FormatInput) :
    ((fmtThreadName inp).map Prod.fst).Sublist ["thread_name"] := by
  unfold fmtThreadName
  split
  · split <;> simp
  · simp

theorem fmtTaskId_sub (inp : FormatInput) :
    ((fmtTaskId inp).map Prod.fst).Sublist ["task_id"] := by
  unfold fmtTaskId
  cases inp.taskId with
  | none => simp
  | some t => simp

theorem fmtTarget_sub (inp : FormatInput) :
    ((fmtTarget inp).map Prod.fst).Sublist ["target"] := by
  rw [show (fmtTarget inp).map Prod.fst = ["target"] from rfl]

theorem fmtModule_sub (inp : FormatInput) :
    ((fmtModule inp).map Prod.fst).Sublist ["module"] := by
  unfold fmtModule
  split
  · split <;> simp
  · simp

theorem fmtSrc_sub (inp : FormatInput) :
    ((fmtSrc inp).map Prod.fst).Sublist ["src"] := by
  unfold fmtSrc
  cases inp.file with
  | none => simp
  | some f => cases inp.line with
    | none => simp
    | some l => simp

theorem fmtTraceId_sub (inp : FormatInput) :
    ((fmtTraceId inp).map Prod.fst).Sublist ["trace_id"] := by
  unfold fmtTraceId
  cases inp.traceId with
  | none => simp
  | some t => simp

theorem fmtExtract_sub (inp : FormatInput) :
    ((fmtExtract inp).map Prod.fst).Sublist ["extract"] := by
  unfold fmtExtract; split <;> simp

/-! ### Lookup helpers -/

theorem keys_ne (k : String) {ks : List String} (hks : k ∉ ks)
    {l : List (String × Json)} (hsub : (l.map Prod.fst).Sublist ks) :
    ∀ p ∈ l, p.1 ≠ k := by
  intro p hp h
  exact hks (h ▸ hsub.subset (List.mem_map_of_mem Prod.fst hp))

theorem lookup_append_right (k : String) :
    ∀ (l₁ l₂ : List (String × Json)), (∀ p ∈ l₁, p.1 ≠ k) →
      (l₁ ++ l₂).lookup k = l₂.lookup k := by
  intro l₁
  induction l₁ with
  | nil => intro l₂ _; rfl
  | cons p rest ih =>
    intro l₂ h
    obtain ⟨a, b⟩ := p
    have ha : (k == a) = false :=
      beq_eq_false_iff_ne.mpr (Ne.symm (h (a, b) (List.mem_cons_self _ _)))
    rw [List.cons_append, List.lookup_cons]
    simp only [ha]
    exact ih l₂ (fun q hq => h q (List.mem_cons_of_mem _ hq))

theorem lookup_eq_none (k : String) :
    ∀ l : List (String × Json), (∀ p ∈ l, p.1 ≠ k) → l.lookup k = none := by
  intro l
  induction l with
  | nil => intro _; rfl
  | cons p rest ih =>
    intro h
    obtain ⟨a, b⟩ := p
    have ha : (k == a) = false :=
      beq_eq_false_iff_ne.mpr (Ne.symm (h (a, b) (List.mem_cons_self _ _)))
    rw [List.lookup_cons]
    simp only [ha]
    exact ih (fun q hq => h q (List.mem_cons_of_mem _ hq))

theorem format_lookup_message (inp : FormatInput) :
    (format inp).lookup "message" = some (extractMessage inp.mask inp.eventFields) := rfl

theorem format_lookup_fields (inp : FormatInput) :
    (format inp).lookup "fields" =
      if fieldsPresent inp.mask inp.eventFields then
        some (Json.obj (serializeEventFields inp.mask inp.eventFields))
      else none := by
  unfold format
  simp only [List.append_assoc]
  rw [lookup_append_right _ _ _ (keys_ne _ (by decide) (fmtHead_sub inp))]
  unfold fmtFields
  split
  · rfl
  · rw [List.nil_append]
    refine lookup_eq_none _ _ ?_
    intro p hp
    simp only [List.mem_append] at hp
    rcases hp with h | h | h | h | h | h | h | h | h | h
    · exact keys_ne _ (by decide) (fmtSpans_sub inp) p h
    · exact keys_ne _ (by decide) (fmtPid_sub inp) p h
    · exact keys_ne _ (by decide) (fmtTid_sub inp) p h
    · exact keys_ne _ (by decide) (fmtThreadName_sub inp) p h
    · exact keys_ne _ (by decide) (fmtTaskId_sub inp) p h
    · exact keys_ne _ (by decide) (fmtTarget_sub inp) p h
    · exact keys_ne _ (by decide) (fmtModule_sub inp) p h
    · exact keys_ne _ (by decide) (fmtSrc_sub inp) p h
    · exact keys_ne _ (by decide) (fmtTraceId_sub inp) p h
    · exact keys_ne _ (by decide) (fmtExtract_sub inp) p h

theorem format_lookup_spans (inp : FormatInput) :
    (format inp).lookup "spans" = some (objOf (spansAndExtract inp).1) := by
  unfold format
  simp only [List.append_assoc]
  rw [lookup_append_right _ _ _ (keys_ne _ (by decide) (fmtHead_sub inp)),
    lookup_append_right _ _ _ (keys_ne _ (by decide) (fmtFields_sub inp))]
  rfl

theorem format_lookup_extract (inp : FormatInput) :
    (format inp).lookup "extract" =
      if (spansAndExtract inp).2.touched then
        some (objOf (serializeExtract inp.extractNames (spansAndExtract inp).2.slots))
      else none := by
  unfold format
  simp only [List.append_assoc]
  rw [lookup_append_right _ _ _ (keys_ne _ (by decide) (fmtHead_sub inp)),
    lookup_append_right _ _ _ (keys_ne _ (by decide) (fmtFields_sub inp)),
    lookup_append_right _ _ _ (keys_ne _ (by decide) (fmtSpans_sub inp)),
    lookup_append_right _ _ _ (keys_ne _ (by decide) (fmtPid_sub inp)),
    lookup_append_right _ _ _ (keys_ne _ (by decide) (fmtTid_sub inp)),
    lookup_append_right _ _ _ (keys_ne _ (by decide) (fmtThreadName_sub inp)),
    lookup_append_right _ _ _ (keys_ne _ (by decide) (fmtTaskId_sub inp)),
    lookup_append_right _ _ _ (keys_ne _ (by decide) (fmtTarget_sub inp)),
    lookup_append_right _ _ _ (keys_ne _ (by decide) (fmtModule_sub inp)),
    lookup_append_right _ _ _ (keys_ne _ (by decide) (fmtSrc_sub inp)),
    lookup_append_right _ _ _ (keys_ne _ (by decide) (fmtTraceId_sub inp))]
  unfold fmtExtract
  split
  · rfl
  · rfl

end Logging

namespace Logging

/-- C4: for every formatted event, the keys present in the top-level JSON
object appear in exactly the order timestamp, level, message, fields,
spans, process_id, thread_id, thread_name, task_id, target, module, src,
trace_id, extract — i.e. the key list of `format` is a sublist of that
fixed order. -/
theorem format_key_order (inp : FormatInput) :
    ((format inp).map Prod.fst).Sublist topLevelKeyOrder := by
  have h : topLevelKeyOrder =
      ["timestamp", "level", "message"] ++ ["fields"] ++ ["spans"] ++ ["process_id"]
      ++ ["thread_id"] ++ ["thread_name"] ++ ["task_id"] ++ ["target"] ++ ["module"]
      ++ ["src"] ++ ["trace_id"] ++ ["extract"] := rfl
  rw [h]
  unfold format
  simp only [List.map_append]
  exact (((((((((((fmtHead_sub inp).append (fmtFields_sub inp)).append
    (fmtSpans_sub inp)).append (fmtPid_sub inp)).append (fmtTid_sub inp)).append
    (fmtThreadName_sub inp)).append (fmtTaskId_sub inp)).append
    (fmtTarget_sub inp)).append (fmtModule_sub inp)).append
    (fmtSrc_sub inp)).append (fmtTraceId_sub inp)).append (fmtExtract_sub inp)

end Logging

namespace Logging

/-! ### The message member -/

theorem extractMessageGo_eq (mask : Option Nat) :
    ∀ (fields : List (String × FieldValue)) (k : Nat),
      extractMessageGo mask k fields =
        ((List.enumFrom k fields).find? (fun p => msgAccept mask p.2.1 p.1)).map
          (fun p => messageRecordValue p.2.2) := by
  intro fields
  induction fields with
  | nil => intro k; rfl
  | cons f rest ih =>
    intro k
    obtain ⟨n, v⟩ := f
    rw [show List.enumFrom k ((n, v) :: rest) = (k, (n, v)) :: List.enumFrom (k + 1) rest
      from rfl]
    rw [List.find?_cons]
    by_cases h : msgAccept mask n k
    · simp only [extractMessageGo, h, if_true]
      simp [h]
    · simp only [extractMessageGo, h, if_false]
      simp [h, ih]

/-- C5: the serialized `message` member is the value of the first visited
event field named `"message"` whose index is not in the call site's skip
mask, and the empty string when no such field exists. The hypothesis keeps
the event inside the domain where `SkippedFieldIndices::contains` does not
panic. -/
theorem message_first_accepted (inp : FormatInput)
    (hlen : inp.eventFields.length ≤ 64) :
    (format inp).lookup "message" =
      some (match inp.eventFields.enum.find?
              (fun p => p.2.1 == "message" && !(fieldSkipped inp.mask p.1)) with
            | some p => messageRecordValue p.2.2
            | none => Json.str "") := by
  rw [format_lookup_message]
  unfold extractMessage
  rw [extractMessageGo_eq]
  unfold List.enum
  have hpred : (fun p : Nat × String × FieldValue => msgAccept inp.mask p.2.1 p.1)
      = (fun p : Nat × String × FieldValue =>
          p.2.1 == "message" && !(fieldSkipped inp.mask p.1)) := rfl
  rw [hpred]
  cases hf : List.find?
      (fun p : Nat × String × FieldValue =>
        p.2.1 == "message" && !(fieldSkipped inp.mask p.1))
      (List.enumFrom 0 inp.eventFields) with
  | none => simp [hf]
  | some p => simp [hf]

/-- Event with a skippable field, an explicit message and a later message,
exercising the message extraction on the first acceptable field. -/
def sampleMsgInput : FormatInput :=
  ⟨"2024-01-15T12:00:00.000000Z", "INFO",
   [("a", .u64 1), ("message", .str "hello"), ("message", .str "later")],
   some 2, [], [], 1234, 42, none, none, "svc", none, none, none, none⟩

theorem message_first_accepted_witness :
    sampleMsgInput.eventFields.length ≤ 64 ∧
    (format sampleMsgInput).lookup "message" =
      some (match sampleMsgInput.eventFields.enum.find?
              (fun p => p.2.1 == "message" && !(fieldSkipped sampleMsgInput.mask p.1)) with
            | some p => messageRecordValue p.2.2
            | none => Json.str "") :=
  ⟨by decide, message_first_accepted sampleMsgInput (by decide)⟩

end Logging

namespace Logging

/-! ### The fields member -/

theorem fieldsPresentGo_eq (mask : Option Nat) :
    ∀ (fields : List (String × FieldValue)) (k : Nat),
      fieldsPresentGo mask k fields =
        (List.enumFrom k fields).any (fun p => fieldsAccept mask p.2.1 p.1) := by
  intro fields
  induction fields with
  | nil => intro k; rfl
  | cons f rest ih =>
    intro k
    obtain ⟨n, v⟩ := f
    rw [show List.enumFrom k ((n, v) :: rest) = (k, (n, v)) :: List.enumFrom (k + 1) rest
      from rfl]
    simp only [fieldsPresentGo, List.any_cons, ih]

theorem serializeEventFieldsGo_eq (mask : Option Nat) :
    ∀ (fields : List (String × FieldValue)) (k : Nat),
      serializeEventFieldsGo mask k fields =
        ((List.enumFrom k fields).filter (fun p => fieldsAccept mask p.2.1 p.1)).map
          (fun p => skipperMember p.2.1 p.2.2) := by
  intro fields
  induction fields with
  | nil => intro k; rfl
  | cons f rest ih =>
    intro k
    obtain ⟨n, v⟩ := f
    rw [show List.enumFrom k ((n, v) :: rest) = (k, (n, v)) :: List.enumFrom (k + 1) rest
      from rfl]
    rw [List.filter_cons]
    by_cases h : fieldsAccept mask n k
    · simp only [serializeEventFieldsGo, h, if_true]
      simp [h, ih]
    · simp only [serializeEventFieldsGo, h, if_false]
      simp [h, ih]

/-- C7: the top-level `fields` key is emitted iff the event has at least
one field whose name is not `"message"`, does not start with `"log."` and
whose index is not in the skip mask; when emitted, the object holds
exactly the members produced from the fields satisfying that filter. The
hypothesis keeps the event inside the panic-free domain of
`SkippedFieldIndices::contains`. -/
theorem fields_member (inp : FormatInput) (hlen : inp.eventFields.length ≤ 64) :
    (format inp).lookup "fields" =
      if inp.eventFields.enum.any (fun p =>
          p.2.1 != "message" && !(strStartsWith p.2.1 "log.")
            && !(fieldSkipped inp.mask p.1)) then
        some (Json.obj ((inp.eventFields.enum.filter (fun p =>
          p.2.1 != "message" && !(strStartsWith p.2.1 "log.")
            && !(fieldSkipped inp.mask p.1))).map
              (fun p => skipperMember p.2.1 p.2.2)))
      else none := by
  rw [format_lookup_fields]
  unfold fieldsPresent serializeEventFields List.enum
  rw [fieldsPresentGo_eq, serializeEventFieldsGo_eq]
  rfl

theorem fields_member_witness :
    sampleMsgInput.eventFields.length ≤ 64 ∧
    (format sampleMsgInput).lookup "fields" =
      (if sampleMsgInput.eventFields.enum.any (fun p =>
          p.2.1 != "message" && !(strStartsWith p.2.1 "log.")
            && !(fieldSkipped sampleMsgInput.mask p.1)) then
        some (Json.obj ((sampleMsgInput.eventFields.enum.filter (fun p =>
          p.2.1 != "message" && !(strStartsWith p.2.1 "log.")
            && !(fieldSkipped sampleMsgInput.mask p.1))).map
              (fun p => skipperMember p.2.1 p.2.2)))
      else none) :=
  ⟨by decide, fields_member sampleMsgInput (by decide)⟩

end Logging

namespace Logging

/-! ### Span keys -/

/-- A scope in which the same call site (id 1) encloses itself, as happens
for a recursive instrumented function. -/
def sampleRecInput : FormatInput :=
  ⟨"t", "INFO", [], none, [⟨"rec", 1, []⟩, ⟨"rec", 1, []⟩], [], 1234, 42,
   none, none, "svc", none, none, none, none⟩

/-- C9 counterexample: with two enclosing spans from the same call site the
`spans` subobject carries the key `"rec#1"` twice, so its keys are not
pairwise distinct. -/
theorem spans_key_collision :
    (format sampleRecInput).lookup "spans" =
      some (objOf [("rec#1", Json.obj []), ("rec#1", Json.obj [])]) ∧
    ¬ ((([("rec#1", Json.obj []), ("rec#1", Json.obj [])] :
        List (String × Json)).map Prod.fst).Nodup) := by
  constructor
  · rw [format_lookup_spans]; rfl
  · decide

/-- C9 amended: the keys of the `spans` subobject have the form
`"{span_name}#{callsite_id}"` walked from the outermost enclosing span
inward, and they are pairwise distinct whenever the enclosing spans carry
pairwise distinct callsite ids — in particular when they come from
pairwise distinct call sites, even with equal span names. A call site
occurring twice in the scope repeats its key. -/
theorem span_keys_form_unique (inp : FormatInput)
    (hcs : (inp.spans.map SpanData.csId).Nodup) :
    (format inp).lookup "spans" = some (objOf (spansAndExtract inp).1) ∧
    ((spansAndExtract inp).1).map Prod.fst = inp.spans.map spanKey ∧
    (((spansAndExtract inp).1).map Prod.fst).Nodup := by
  refine ⟨format_lookup_spans inp, serializeSpans_fst _ _ _, ?_⟩
  unfold spansAndExtract
  rw [serializeSpans_fst]
  exact spanKeys_nodup _ hcs

/-- Two identically named spans at distinct call sites. -/
def sampleHandlerInput : FormatInput :=
  ⟨"t", "INFO", [], none, [⟨"handler", 1, []⟩, ⟨"handler", 2, []⟩], [], 1234, 42,
   none, none, "svc", none, none, none, none⟩

theorem span_keys_form_unique_witness :
    ((sampleHandlerInput.spans.map SpanData.csId).Nodup) ∧
    ((format sampleHandlerInput).lookup "spans" =
        some (objOf (spansAndExtract sampleHandlerInput).1) ∧
      ((spansAndExtract sampleHandlerInput).1).map Prod.fst =
        sampleHandlerInput.spans.map spanKey ∧
      (((spansAndExtract sampleHandlerInput).1).map Prod.fst).Nodup) :=
  ⟨by decide, span_keys_form_unique sampleHandlerInput (by decide)⟩

end Logging

namespace Logging

/-! ### Registration overflow -/

/-- 65 pairwise distinct field names, so the last declared field has
index 64. -/
def wideNames : List String := (List.range 65).map natDecStr

/-- The same call site with the name at index 64 repeated at index 65, so
registration pushes the previous index 64 into the bitset. -/
def wideDupNames : List String := wideNames ++ ["64"]

/-- C1 counterexample: a call site whose field indices exceed 63 is not
refused: with 65 distinct names registration succeeds and returns
`Interest::always`, and with a duplicate whose earlier occurrence sits at
index 64 the `push` panics (modelled as `none`) instead of returning
"not interested". -/
theorem register_callsite_overflow_counterexample :
    registerCallsite wideNames = some (Interest.always, none) ∧
    (registerCallsite wideNames).map Prod.fst ≠ some Interest.never ∧
    registerCallsite wideDupNames = none := by
  refine ⟨by decide, by decide, by decide⟩

/-- C1 amended: `register_callsite` never returns "not interested". For
every event call site it either registers the call site and returns
`Interest::always` — even when field indices exceed 63 — or panics inside
`SkippedFieldIndices::push` (`expect("field index too large")`) when a
duplicated field's earlier occurrence has index 64 or more; the panic is
modelled as `none`. -/
theorem register_callsite_never_uninterested (names : List String) :
    registerCallsite names = none ∨
    ∃ m, registerCallsite names = some (Interest.always, m) := by
  unfold registerCallsite
  cases registerCallsiteMask names with
  | none => exact Or.inl rfl
  | some bits => exact Or.inr ⟨_, rfl⟩

/-! ### 128-bit integer coercion -/

/-- An event carrying `big = u128::MAX`. -/
def sampleBigInput : FormatInput :=
  ⟨"t", "INFO", [("big", .u128 (2 ^ 128 - 1))], none, [], [], 1234, 42, none,
   none, "svc", none, none, none, none⟩

/-- C2 counterexample: the event field `big = u128::MAX` appears in the
`fields` object as a raw JSON number token, not as the decimal string the
claim demands. -/
theorem u128_string_counterexample :
    (format sampleBigInput).lookup "fields" =
      some (Json.obj [(some "big",
        Json.num (340282366920938463463374607431768211455 : Int))]) ∧
    Json.num (340282366920938463463374607431768211455 : Int) ≠
      Json.str "340282366920938463463374607431768211455" := by
  refine ⟨rfl, fun h => Json.noConfusion h⟩

/-- C2 amended: only the span-store path (`SpanFieldsRecorder::record_u128`)
coerces a 128-bit integer to a JSON number when representable in 64 bits
and to its decimal string otherwise; the event-field path
(`MessageFieldSkipper::record_u128`) always passes the value through as a
raw JSON number token, so `big = u128::MAX` lands in `fields` as the JSON
number 340282366920938463463374607431768211455, not a string. -/
theorem u128_coercion_paths (v : Nat) (name : String) (hv : 2 ^ 64 ≤ v) :
    spanRecordValue (.u128 v) = Json.str (natDecStr v) ∧
    skipperMember name (.u128 v) = (some name, Json.num v) ∧
    (∀ w : Nat, w < 2 ^ 64 → spanRecordValue (.u128 w) = Json.num w) := by
  refine ⟨?_, rfl, ?_⟩
  · simp only [spanRecordValue]
    rw [if_neg (Nat.not_lt.mpr hv)]
  · intro w hw
    simp only [spanRecordValue]
    rw [if_pos hw]

theorem u128_coercion_paths_witness :
    2 ^ 64 ≤ (2 ^ 64 : Nat) ∧
    (spanRecordValue (.u128 (2 ^ 64)) = Json.str (natDecStr (2 ^ 64)) ∧
     skipperMember "big" (.u128 (2 ^ 64)) = (some "big", Json.num (2 ^ 64)) ∧
     (∀ w : Nat, w < 2 ^ 64 → spanRecordValue (.u128 w) = Json.num w)) :=
  ⟨Nat.le_refl _, u128_coercion_paths (2 ^ 64) "big" (Nat.le_refl _)⟩

/-! ### Byte slice serialization -/

/-- C3 counterexample: the byte slice `[0xde, 0xad]` is not serialized as
the plain hex string `"dead"` on either path: the span store keeps a JSON
array of the byte values, and the event path emits the `{:x?}` debug
string `"[de, ad]"` with brackets and comma-space separators. -/
theorem bytes_hex_counterexample :
    spanRecordValue (.bytes [222, 173]) = Json.arr [Json.num 222, Json.num 173] ∧
    spanRecordValue (.bytes [222, 173]) ≠ Json.str "dead" ∧
    skipperMember "data" (.bytes [222, 173]) = (some "data", Json.str "[de, ad]") ∧
    Json.str "[de, ad]" ≠ Json.str "dead" := by
  refine ⟨rfl, fun h => Json.noConfusion h, rfl, ?_⟩
  intro h
  injection h with h2
  exact absurd h2 (by decide)

theorem bytesDebugHex_no_0x_marker (bs : List Nat) :
    strStartsWith (bytesDebugHex bs) "0x" = false := by
  unfold strStartsWith bytesDebugHex
  rw [String.data_append, String.data_append]
  rfl

/-- C3 amended: a byte-slice value stored in a span's field store is
serialized as a JSON array of the byte values, while a byte slice among an
event's fields (or as the message) is serialized as the Rust `{:x?}` debug
string: bracketed, comma-space separated, lower-case hex per byte, without
a `0x` prefix. -/
theorem bytes_serialization_paths (name : String) (bs : List Nat) :
    spanRecordValue (.bytes bs) = Json.arr (bs.map (fun b => Json.num b)) ∧
    skipperMember name (.bytes bs) = (some name, Json.str (bytesDebugHex bs)) ∧
    messageRecordValue (.bytes bs) = Json.str (bytesDebugHex bs) ∧
    bytesDebugHex bs = "[" ++ String.intercalate ", " (bs.map hexByte) ++ "]" ∧
    strStartsWith (bytesDebugHex bs) "0x" = false :=
  ⟨rfl, rfl, rfl, rfl, bytesDebugHex_no_0x_marker bs⟩

/-! ### Error fields lose their key -/

/-- An event whose only field holds an error value displaying as "boom". -/
def sampleErrInput : FormatInput :=
  ⟨"t", "ERROR", [("err", .error "boom")], none, [], [], 1234, 42, none, none,
   "svc", none, none, none, none⟩

/-- C10: evaluation at the failing input. `MessageFieldSkipper::record_error`
calls `serialize_value` without a preceding `serialize_key`, so an accepted
error-valued field reaches the `fields` object as a bare value member
without the field's name — not as the claimed key/value pair. -/
theorem record_error_keyless :
    serializeEventFields none [("err", FieldValue.error "boom")] =
      [(none, Json.str "boom")] ∧
    (format sampleErrInput).lookup "fields" =
      some (Json.obj [(none, Json.str "boom")]) ∧
    (none : Option String) ≠ some "err" := by
  refine ⟨rfl, rfl, by decide⟩

end Logging

namespace Logging

/-! ### Infrastructure for the registration invariant -/

theorem drop_eq_cons {α : Type} :
    ∀ (l : List α) (k : Nat) (a : α) (t : List α),
      l.drop k = a :: t → l[k]? = some a ∧ l.drop (k + 1) = t := by
  intro l
  induction l with
  | nil => intro k a t h; rw [List.drop_nil] at h; exact absurd h (by simp)
  | cons x xs ih =>
    intro k a t h
    cases k with
    | zero =>
      rw [List.drop_zero] at h
      cases h
      exact ⟨by simp, by simp⟩
    | succ k =>
      rw [List.drop_succ_cons] at h
      obtain ⟨h1, h2⟩ := ih k a t h
      exact ⟨by simpa using h1, by simpa [List.drop_succ_cons] using h2⟩

theorem exists_last_occ (names : List String) (n : String) (k j : Nat)
    (hj : j < k) (hP : names[j]? = some n) :
    ∃ m, m < k ∧ names[m]? = some n ∧
      ∀ i, m < i → i < k → names[i]? ≠ some n := by
  have hspec : names[Nat.findGreatest (fun i => names[i]? = some n) (k - 1)]? = some n :=
    @Nat.findGreatest_spec j (fun i => names[i]? = some n) _ (k - 1)
      (show j ≤ k - 1 by omega) hP
  refine ⟨Nat.findGreatest (fun i => names[i]? = some n) (k - 1), ?_, hspec, ?_⟩
  · have hle : Nat.findGreatest (fun i => names[i]? = some n) (k - 1) ≤ k - 1 :=
      Nat.findGreatest_le _
    omega
  · intro i hgt hik
    exact Nat.findGreatest_is_greatest hgt (by omega)

theorem enumFrom_mem_of_getElem {α : Type} :
    ∀ (l : List α) (k i : Nat) (a : α), l[i]? = some a →
      (k + i, a) ∈ List.enumFrom k l := by
  intro l
  induction l with
  | nil => intro k i a h; simp at h
  | cons x xs ih =>
    intro k i a h
    cases i with
    | zero =>
      simp only [List.getElem?_cons_zero, Option.some.injEq] at h
      subst h
      exact List.mem_cons_self _ _
    | succ i =>
      simp only [List.getElem?_cons_succ] at h
      have := ih (k + 1) i a h
      rw [show k + (i + 1) = (k + 1) + i from by omega]
      exact List.mem_cons_of_mem _ this

theorem enumFrom_getElem_of_mem {α : Type} :
    ∀ (l : List α) (k : Nat) (q : Nat × α), q ∈ List.enumFrom k l →
      k ≤ q.1 ∧ l[q.1 - k]? = some q.2 := by
  intro l
  induction l with
  | nil => intro k q h; simp [List.enumFrom] at h
  | cons x xs ih =>
    intro k q h
    rw [show List.enumFrom k (x :: xs) = (k, x) :: List.enumFrom (k + 1) xs from rfl] at h
    rcases List.mem_cons.mp h with h | h
    · subst h; exact ⟨Nat.le_refl _, by simp⟩
    · obtain ⟨h1, h2⟩ := ih (k + 1) q h
      refine ⟨by omega, ?_⟩
      have hq : q.1 - k = (q.1 - (k + 1)) + 1 := by omega
      rw [hq]
      simpa using h2

theorem enum_getElem_of_mem {α : Type} (l : List α) (p : Nat × α)
    (hp : p ∈ l.enum) : l[p.1]? = some p.2 := by
  have h := (enumFrom_getElem_of_mem l 0 p (by simpa [List.enum] using hp)).2
  simpa using h

theorem find?_eq_of_unique {α : Type} (p : α → Bool) :
    ∀ (l : List α) (x : α), x ∈ l → p x = true →
      (∀ y ∈ l, p y = true → y = x) → l.find? p = some x := by
  intro l
  induction l with
  | nil => intro x hx; simp at hx
  | cons z rest ih =>
    intro x hx hpx huniq
    rw [List.find?_cons]
    cases hz : p z with
    | true => rw [huniq z (List.mem_cons_self _ _) hz]
    | false =>
      have hxz : x ≠ z := fun h => by rw [h, hz] at hpx; exact Bool.noConfusion hpx
      have hx' : x ∈ rest := by
        rcases List.mem_cons.mp hx with h | h
        · exact absurd h hxz
        · exact h
      exact ih x hx' hpx (fun y hy hpy => huniq y (List.mem_cons_of_mem _ hy) hpy)

theorem testBit_or_shl (bits old j : Nat) :
    (bits ||| 1 <<< old).testBit j = (bits.testBit j || decide (old = j)) := by
  rw [Nat.testBit_or, Nat.shiftLeft_eq, one_mul, Nat.testBit_two_pow]

end Logging

namespace Logging

/-! ### The registration invariant -/

theorem seen_update_invariant (names : List String) (k : Nat) (n₀ : String)
    (seen : String → Option Nat)
    (hget : names[k]? = some n₀)
    (hseen : ∀ n j, seen n = some j ↔
      (j < k ∧ names[j]? = some n ∧ ∀ jj, j < jj → jj < k → names[jj]? ≠ some n)) :
    ∀ n j, (if n = n₀ then some k else seen n) = some j ↔
      (j < k + 1 ∧ names[j]? = some n ∧
        ∀ jj, j < jj → jj < k + 1 → names[jj]? ≠ some n) := by
  intro n j
  by_cases hn : n = n₀
  · subst hn
    rw [if_pos rfl]
    constructor
    · intro h
      have hjk : k = j := Option.some.inj h
      subst hjk
      refine ⟨by omega, hget, ?_⟩
      intro jj h1 h2
      intro _
      omega
    · rintro ⟨hj, hjname, hlast⟩
      have hjk : j = k := by
        by_contra hne
        exact hlast k (by omega) (by omega) hget
      rw [hjk]
  · rw [if_neg hn, hseen n j]
    constructor
    · rintro ⟨hj, hjname, hlast⟩
      refine ⟨by omega, hjname, ?_⟩
      intro jj h1 h2 heq
      by_cases hjj : jj < k
      · exact hlast jj h1 hjj heq
      · have hjjk : jj = k := by omega
        rw [hjjk, hget] at heq
        exact hn (Option.some.inj heq).symm
    · rintro ⟨hj, hjname, hlast⟩
      have hjk : j ≠ k := by
        intro h
        rw [h, hget] at hjname
        exact hn (Option.some.inj hjname).symm
      exact ⟨by omega, hjname, fun jj h1 h2 => hlast jj h1 (by omega)⟩

theorem regFields_invariant (names : List String) (hlen : names.length ≤ 64) :
    ∀ (rest : List String) (k : Nat) (seen : String → Option Nat) (bits : Nat),
      names.drop k = rest → k ≤ names.length →
      (∀ n j, seen n = some j ↔
        (j < k ∧ names[j]? = some n ∧ ∀ jj, j < jj → jj < k → names[jj]? ≠ some n)) →
      (∀ j, bits.testBit j = true ↔
        (∃ jj, j < jj ∧ jj < k ∧ names[jj]? = names[j]?)) →
      ∃ b, regFields seen bits k rest = some b ∧
        ∀ j, b.testBit j = true ↔
          (∃ jj, j < jj ∧ jj < names.length ∧ names[jj]? = names[j]?) := by
  intro rest
  induction rest with
  | nil =>
    intro k seen bits hdrop hk hseen hbits
    have hkl : names.length ≤ k := by
      have hl := congrArg List.length hdrop
      rw [List.length_drop] at hl
      simp only [List.length_nil] at hl
      omega
    refine ⟨bits, rfl, fun j => ?_⟩
    rw [hbits j]
    constructor
    · rintro ⟨jj, h1, h2, h3⟩
      exact ⟨jj, h1, by omega, h3⟩
    · rintro ⟨jj, h1, h2, h3⟩
      exact ⟨jj, h1, by omega, h3⟩
  | cons n₀ rest ih =>
    intro k seen bits hdrop hk hseen hbits
    obtain ⟨hget, hdrop'⟩ := drop_eq_cons names k n₀ rest hdrop
    have hklen : k < names.length := by
      by_contra hc
      rw [List.getElem?_eq_none (by omega)] at hget
      exact Option.noConfusion hget
    cases hseen0 : seen n₀ with
    | none =>
      have hnone : ∀ j, j < k → names[j]? ≠ some n₀ := by
        intro j hj hsome
        obtain ⟨m, hm1, hm2, hm3⟩ := exists_last_occ names n₀ k j hj hsome
        have hcontr : seen n₀ = some m := (hseen n₀ m).mpr ⟨hm1, hm2, hm3⟩
        rw [hseen0] at hcontr
        exact Option.noConfusion hcontr
      have hbits' : ∀ j, bits.testBit j = true ↔
          (∃ jj, j < jj ∧ jj < k + 1 ∧ names[jj]? = names[j]?) := by
        intro j
        rw [hbits j]
        constructor
        · rintro ⟨jj, h1, h2, h3⟩
          exact ⟨jj, h1, by omega, h3⟩
        · rintro ⟨jj, h1, h2, h3⟩
          by_cases hjj : jj < k
          · exact ⟨jj, h1, hjj, h3⟩
          · have hjjk : jj = k := by omega
            rw [hjjk, hget] at h3
            exact absurd h3.symm (hnone j (by omega))
      have hres := ih (k + 1) (fun m => if m = n₀ then some k else seen m) bits
        hdrop' (by omega)
        (seen_update_invariant names k n₀ seen hget hseen) hbits'
      obtain ⟨b, hb1, hb2⟩ := hres
      refine ⟨b, ?_, hb2⟩
      rw [show regFields seen bits k (n₀ :: rest) =
        (match seen n₀ with
         | none => regFields (fun m => if m = n₀ then some k else seen m) bits (k + 1) rest
         | some old =>
           match pushOpt bits old with
           | none => none
           | some b2 => regFields (fun m => if m = n₀ then some k else seen m) b2 (k + 1) rest)
        from rfl]
      rw [hseen0]
      exact hb1
    | some old =>
      obtain ⟨hold1, hold2, hold3⟩ := (hseen n₀ old).mp hseen0
      have holdlt : old < 64 := by omega
      have hpush : pushOpt bits old = some (bits ||| (1 <<< old)) := by
        unfold pushOpt
        rw [if_pos holdlt]
      have hbits' : ∀ j, (bits ||| (1 <<< old)).testBit j = true ↔
          (∃ jj, j < jj ∧ jj < k + 1 ∧ names[jj]? = names[j]?) := by
        intro j
        rw [testBit_or_shl]
        constructor
        · intro h
          rw [Bool.or_eq_true] at h
          rcases h with h | h
          · obtain ⟨jj, h1, h2, h3⟩ := (hbits j).mp h
            exact ⟨jj, h1, by omega, h3⟩
          · have hjold : old = j := of_decide_eq_true h
            subst hjold
            refine ⟨k, by omega, by omega, ?_⟩
            rw [hget, hold2]
        · rintro ⟨jj, h1, h2, h3⟩
          rw [Bool.or_eq_true]
          by_cases hjj : jj < k
          · exact Or.inl ((hbits j).mpr ⟨jj, h1, hjj, h3⟩)
          · have hjjk : jj = k := by omega
            rw [hjjk, hget] at h3
            by_cases hjo : j = old
            · refine Or.inr ?_
              rw [hjo]
              simp
            · rcases Nat.lt_or_ge j old with hlt | hge
              · refine Or.inl ((hbits j).mpr ⟨old, hlt, hold1, ?_⟩)
                rw [hold2, ← h3]
              · have hgt : old < j := by omega
                exact absurd h3.symm (hold3 j hgt (by omega))
      have hres := ih (k + 1) (fun m => if m = n₀ then some k else seen m)
        (bits ||| (1 <<< old)) hdrop' (by omega)
        (seen_update_invariant names k n₀ seen hget hseen) hbits'
      obtain ⟨b, hb1, hb2⟩ := hres
      refine ⟨b, ?_, hb2⟩
      show regFields seen bits k (n₀ :: rest) = some b
      rw [show regFields seen bits k (n₀ :: rest) =
        (match seen n₀ with
         | none => regFields (fun m => if m = n₀ then some k else seen m) bits (k + 1) rest
         | some old =>
           match pushOpt bits old with
           | none => none
           | some b2 => regFields (fun m => if m = n₀ then some k else seen m) b2 (k + 1) rest)
        from rfl]
      rw [hseen0]
      show (match pushOpt bits old with
            | none => none
            | some b2 =>
              regFields (fun m => if m = n₀ then some k else seen m) b2 (k + 1) rest)
          = some b
      rw [hpush]
      exact hb1

theorem registerCallsiteMask_spec (names : List String) (hlen : names.length ≤ 64) :
    ∃ bits, registerCallsiteMask names = some bits ∧
      ∀ j, bits.testBit j = true ↔
        (∃ jj, j < jj ∧ jj < names.length ∧ names[jj]? = names[j]?) := by
  refine regFields_invariant names hlen names 0 (fun _ => none) 0 rfl (by omega) ?_ ?_
  · intro n j
    constructor
    · intro h
      exact Option.noConfusion h
    · rintro ⟨h1, _, _⟩
      exact absurd h1 (Nat.not_lt_zero j)
  · intro j
    constructor
    · intro h
      rw [Nat.zero_testBit] at h
      exact Bool.noConfusion h
    · rintro ⟨jj, _, h2, _⟩
      exact absurd h2 (Nat.not_lt_zero jj)

end Logging

namespace Logging

/-- C6: for an event call site with repeated field names, the registered
skip mask contains exactly the indices of all non-final occurrences of
each repeated name (the previous index is pushed on each collision, so the
last occurrence wins); consequently the `fields` object holds exactly the
members of the final occurrences passing the name filter, and the message
is taken from the final occurrence of `"message"`. The hypothesis keeps
the call site within the 64-bit mask domain, where `push` cannot panic. -/
theorem callsite_dedup (ef : List (String × FieldValue)) (hlen : ef.length ≤ 64) :
    ∃ bits, registerCallsiteMask (ef.map Prod.fst) = some bits ∧
      (∀ j, bits.testBit j = true ↔
        (∃ jj, j < jj ∧ jj < ef.length ∧
          (ef.map Prod.fst)[jj]? = (ef.map Prod.fst)[j]?)) ∧
      serializeEventFields (some bits) ef =
        ((ef.enum.filter (fun p =>
          p.2.1 != "message" && !(strStartsWith p.2.1 "log.") &&
            decide (∀ jj, jj < ef.length → p.1 < jj →
              (ef.map Prod.fst)[jj]? ≠ (ef.map Prod.fst)[p.1]?))).map
                (fun p => skipperMember p.2.1 p.2.2)) ∧
      (∀ i n v, ef[i]? = some (n, v) → n = "message" →
        (∀ jj, jj < ef.length → i < jj →
          (ef.map Prod.fst)[jj]? ≠ some "message") →
        extractMessage (some bits) ef = messageRecordValue v) := by
  have hlenmap : (ef.map Prod.fst).length = ef.length := by simp
  obtain ⟨bits, hmask, hchar⟩ :=
    registerCallsiteMask_spec (ef.map Prod.fst) (by rw [hlenmap]; exact hlen)
  have hchar' : ∀ j, bits.testBit j = true ↔
      (∃ jj, j < jj ∧ jj < ef.length ∧
        (ef.map Prod.fst)[jj]? = (ef.map Prod.fst)[j]?) := by
    intro j
    rw [hchar j, hlenmap]
  refine ⟨bits, hmask, hchar', ?_, ?_⟩
  · unfold serializeEventFields
    rw [serializeEventFieldsGo_eq]
    rw [show ef.enum = List.enumFrom 0 ef from rfl]
    refine congrArg (List.map _) (List.filter_congr ?_)
    intro p hp
    have hskip : (!(fieldSkipped (some bits) p.1)) =
        decide (∀ jj, jj < ef.length → p.1 < jj →
          (ef.map Prod.fst)[jj]? ≠ (ef.map Prod.fst)[p.1]?) := by
      cases htb : bits.testBit p.1 with
      | true =>
        obtain ⟨jj, h1, h2, h3⟩ := (hchar' p.1).mp htb
        have hnall : ¬(∀ jj, jj < ef.length → p.1 < jj →
            (ef.map Prod.fst)[jj]? ≠ (ef.map Prod.fst)[p.1]?) := fun hall =>
          hall jj h2 h1 h3
        rw [show fieldSkipped (some bits) p.1 = bits.testBit p.1 from rfl, htb]
        simp only [Bool.not_true]
        symm
        rw [decide_eq_false_iff_not]
        exact hnall
      | false =>
        have hall : (∀ jj, jj < ef.length → p.1 < jj →
            (ef.map Prod.fst)[jj]? ≠ (ef.map Prod.fst)[p.1]?) := by
          intro jj hjj hgt heq
          have hx := (hchar' p.1).mpr ⟨jj, hgt, hjj, heq⟩
          rw [htb] at hx
          exact Bool.noConfusion hx
        rw [show fieldSkipped (some bits) p.1 = bits.testBit p.1 from rfl, htb]
        simp only [Bool.not_false]
        symm
        rw [decide_eq_true_eq]
        exact hall
    unfold fieldsAccept
    rw [hskip]
  · intro i n v hi hn hfinal
    subst hn
    unfold extractMessage
    rw [extractMessageGo_eq]
    have hnamei : (ef.map Prod.fst)[i]? = some "message" := by
      rw [List.getElem?_map, hi]
      rfl
    have hilen : i < ef.length := by
      by_contra hc
      rw [List.getElem?_eq_none (by omega)] at hi
      exact Option.noConfusion hi
    have hnotb : bits.testBit i = false := by
      cases htb : bits.testBit i with
      | false => rfl
      | true =>
        obtain ⟨jj, h1, h2, h3⟩ := (hchar' i).mp htb
        rw [hnamei] at h3
        exact absurd h3 (hfinal jj h2 h1)
    have hfind : (List.enumFrom 0 ef).find?
        (fun p => msgAccept (some bits) p.2.1 p.1) = some (i, ("message", v)) := by
      refine find?_eq_of_unique _ (List.enumFrom 0 ef) (i, ("message", v)) ?_ ?_ ?_
      · have h := enumFrom_mem_of_getElem ef 0 i ("message", v) hi
        simpa using h
      · simp [msgAccept, fieldSkipped, containsBit, hnotb]
      · intro y hy hpy
        obtain ⟨i2, n2, v2⟩ := y
        have hy2 : ef[i2]? = some (n2, v2) := by
          have h := (enumFrom_getElem_of_mem ef 0 (i2, (n2, v2)) hy).2
          simpa using h
        have hn2 : n2 = "message" := by
          simp [msgAccept, fieldSkipped, containsBit] at hpy
          exact hpy.1
        subst hn2
        have hnotb2 : bits.testBit i2 = false := by
          simp [msgAccept, fieldSkipped, containsBit] at hpy
          exact hpy
        have hnamei2 : (ef.map Prod.fst)[i2]? = some "message" := by
          rw [List.getElem?_map, hy2]
          rfl
        have hi2len : i2 < ef.length := by
          by_contra hc
          rw [List.getElem?_eq_none (by omega)] at hy2
          exact Option.noConfusion hy2
        have hii : i2 = i := by
          rcases lt_trichotomy i2 i with hlt | heq | hgt
          · have hx := (hchar' i2).mpr ⟨i, hlt, hilen, by rw [hnamei, hnamei2]⟩
            rw [hnotb2] at hx
            exact Bool.noConfusion hx
          · exact heq
          · exact absurd hnamei2 (hfinal i2 hi2len hgt)
        subst hii
        rw [hi] at hy2
        have hvv : v2 = v := by
          have h2 := Option.some.inj hy2
          injection h2 with h3 h4
          exact h4.symm
        rw [hvv]
    rw [hfind]
    rfl

/-- Event fields with a repeated data field and a repeated message field. -/
def sampleDedupFields : List (String × FieldValue) :=
  [("a", .u64 1), ("a", .u64 2), ("b", .u64 3),
   ("message", .str "m1"), ("message", .str "m2")]

theorem callsite_dedup_witness :
    sampleDedupFields.length ≤ 64 ∧
    (∃ bits, registerCallsiteMask (sampleDedupFields.map Prod.fst) = some bits ∧
      (∀ j, bits.testBit j = true ↔
        (∃ jj, j < jj ∧ jj < sampleDedupFields.length ∧
          (sampleDedupFields.map Prod.fst)[jj]? =
            (sampleDedupFields.map Prod.fst)[j]?)) ∧
      serializeEventFields (some bits) sampleDedupFields =
        ((sampleDedupFields.enum.filter (fun p =>
          p.2.1 != "message" && !(strStartsWith p.2.1 "log.") &&
            decide (∀ jj, jj < sampleDedupFields.length → p.1 < jj →
              (sampleDedupFields.map Prod.fst)[jj]? ≠
                (sampleDedupFields.map Prod.fst)[p.1]?))).map
                  (fun p => skipperMember p.2.1 p.2.2)) ∧
      (∀ i n v, sampleDedupFields[i]? = some (n, v) → n = "message" →
        (∀ jj, jj < sampleDedupFields.length → i < jj →
          (sampleDedupFields.map Prod.fst)[jj]? ≠ some "message") →
        extractMessage (some bits) sampleDedupFields = messageRecordValue v)) :=
  ⟨by decide, callsite_dedup sampleDedupFields (by decide)⟩

end Logging

namespace Logging

/-! ### Extract buffer: index lemmas -/

theorem findIdx?_some_spec {α : Type} (p : α → Bool) :
    ∀ (l : List α) (s i : Nat), List.findIdx? p l s = some i →
      s ≤ i ∧ i - s < l.length ∧ ∃ a, l[i - s]? = some a ∧ p a = true := by
  intro l
  induction l with
  | nil => intro s i h; simp [List.findIdx?] at h
  | cons x xs ih =>
    intro s i h
    rw [List.findIdx?_cons] at h
    by_cases hx : p x = true
    · rw [if_pos hx] at h
      have hsi : s = i := Option.some.inj h
      subst hsi
      exact ⟨Nat.le_refl _, by simp, x, by simp, hx⟩
    · rw [if_neg hx] at h
      obtain ⟨h1, h2, a, h3, h4⟩ := ih (s + 1) i h
      refine ⟨by omega, by simp only [List.length_cons]; omega, a, ?_, h4⟩
      have hsplit : i - s = (i - (s + 1)) + 1 := by omega
      rw [hsplit]
      simpa using h3

theorem findIdx?_beq_value (names : List String) (n : String) (i : Nat)
    (h : names.findIdx? (fun m => m == n) = some i) :
    i < names.length ∧ names[i]? = some n := by
  obtain ⟨h1, h2, a, h3, h4⟩ := findIdx?_some_spec (fun m => m == n) names 0 i h
  simp only [Nat.sub_zero] at h2 h3
  have han : a = n := by simpa using h4
  rw [han] at h3
  exact ⟨h2, h3⟩

theorem findIdx?_beq_isSome_of_mem :
    ∀ (names : List String) (n : String) (s : Nat), n ∈ names →
      ∃ i, List.findIdx? (fun m => m == n) names s = some i := by
  intro names
  induction names with
  | nil => intro n s h; simp at h
  | cons x xs ih =>
    intro n s h
    rw [List.findIdx?_cons]
    by_cases hx : (x == n) = true
    · exact ⟨s, by rw [if_pos hx]⟩
    · rw [if_neg hx]
      have hn : n ∈ xs := by
        rcases List.mem_cons.mp h with h | h
        · exact absurd (by rw [h]; exact beq_self_eq_true x) hx
        · exact h
      exact ih n (s + 1) hn

theorem findIdx?_beq_isSome_iff_mem (names : List String) (n : String) :
    (names.findIdx? (fun m => m == n)).isSome = true ↔ n ∈ names := by
  constructor
  · intro h
    cases hf : names.findIdx? (fun m => m == n) with
    | none => rw [hf] at h; exact Bool.noConfusion h
    | some i =>
      obtain ⟨_, h2⟩ := findIdx?_beq_value names n i hf
      exact List.mem_iff_getElem?.mpr ⟨i, h2⟩
  · intro h
    obtain ⟨i, hi⟩ := findIdx?_beq_isSome_of_mem names n 0 h
    rw [hi]
    rfl

/-! ### Extract buffer: slot updates -/

theorem extractSet_slots_length (names : List String) (st : ExtractState)
    (m : String) (v : Json) :
    (extractSet names st m v).slots.length = st.slots.length := by
  unfold extractSet
  cases h : names.findIdx? (fun x => x == m) with
  | none => rfl
  | some i => simp [List.length_set]

theorem extractSet_touched (names : List String) (st : ExtractState)
    (m : String) (v : Json) :
    (extractSet names st m v).touched =
      (st.touched || (names.findIdx? (fun x => x == m)).isSome) := by
  unfold extractSet
  cases h : names.findIdx? (fun x => x == m) with
  | none => simp
  | some i => simp

theorem slotVal_extractSet_ne (names : List String) (st : ExtractState)
    (m n : String) (v : Json) (hmn : m ≠ n) :
    slotVal names (extractSet names st m v).slots n = slotVal names st.slots n := by
  unfold extractSet slotVal
  cases hm : names.findIdx? (fun x => x == m) with
  | none => rfl
  | some j =>
    cases hn : names.findIdx? (fun x => x == n) with
    | none => rfl
    | some i =>
      have hji : j ≠ i := by
        intro hh
        obtain ⟨_, hjv⟩ := findIdx?_beq_value names m j hm
        obtain ⟨_, hiv⟩ := findIdx?_beq_value names n i hn
        rw [hh, hiv] at hjv
        exact hmn (Option.some.inj hjv).symm
      dsimp only
      rw [List.getD_eq_getElem?_getD, List.getD_eq_getElem?_getD,
        List.getElem?_set_ne hji]

theorem slotVal_extractSet_self (names : List String) (st : ExtractState)
    (n : String) (v : Json) (hn : n ∈ names)
    (hlen : st.slots.length = names.length) :
    slotVal names (extractSet names st n v).slots n = some v := by
  obtain ⟨i, hi⟩ := findIdx?_beq_isSome_of_mem names n 0 hn
  obtain ⟨hlt, _⟩ := findIdx?_beq_value names n i hi
  unfold extractSet slotVal
  rw [hi]
  dsimp only
  rw [List.getD_eq_getElem?_getD, List.getElem?_set_self (by rw [hlen]; exact hlt)]
  rfl

theorem slotVal_initial (names : List String) (n : String) :
    slotVal names (initialExtract names).slots n = none := by
  unfold slotVal initialExtract
  cases hf : names.findIdx? (fun m => m == n) with
  | none => rfl
  | some i =>
    dsimp only
    rw [List.getD_eq_getElem?_getD, List.getElem?_map]
    cases names[i]? <;> rfl

end Logging

namespace Logging

/-! ### Extract buffer: folds over span fields and the span walk -/

theorem serializeSpanFields_entries (names : List String) :
    ∀ (fs : List (String × Json)) (st : ExtractState),
      (serializeSpanFields names st fs).1 = fs := by
  intro fs
  induction fs with
  | nil => intro st; rfl
  | cons f rest ih =>
    intro st
    obtain ⟨m, v⟩ := f
    simp [serializeSpanFields, ih]

theorem serializeSpanFields_slots_length (names : List String) :
    ∀ (fs : List (String × Json)) (st : ExtractState),
      (serializeSpanFields names st fs).2.slots.length = st.slots.length := by
  intro fs
  induction fs with
  | nil => intro st; rfl
  | cons f rest ih =>
    intro st
    obtain ⟨m, v⟩ := f
    rw [show (serializeSpanFields names st ((m, v) :: rest)).2 =
      (serializeSpanFields names (extractSet names st m v) rest).2 from rfl]
    rw [ih (extractSet names st m v), extractSet_slots_length]

theorem serializeSpanFields_touched (names : List String) :
    ∀ (fs : List (String × Json)) (st : ExtractState),
      (serializeSpanFields names st fs).2.touched =
        (st.touched || fs.any (fun p => (names.findIdx? (fun x => x == p.1)).isSome)) := by
  intro fs
  induction fs with
  | nil => intro st; simp [serializeSpanFields]
  | cons f rest ih =>
    intro st
    obtain ⟨m, v⟩ := f
    rw [show (serializeSpanFields names st ((m, v) :: rest)).2 =
      (serializeSpanFields names (extractSet names st m v) rest).2 from rfl]
    rw [ih (extractSet names st m v), extractSet_touched]
    simp [Bool.or_assoc]

theorem serializeSpanFields_slotVal (names : List String) (n : String)
    (hn : n ∈ names) :
    ∀ (fs : List (String × Json)) (st : ExtractState),
      (fs.map Prod.fst).Nodup → st.slots.length = names.length →
      slotVal names (serializeSpanFields names st fs).2.slots n =
        (fs.lookup n).or (slotVal names st.slots n) := by
  intro fs
  induction fs with
  | nil => intro st _ _; simp [serializeSpanFields, Option.none_or]
  | cons f rest ih =>
    intro st hnd hlen
    obtain ⟨m, v⟩ := f
    rw [show (serializeSpanFields names st ((m, v) :: rest)).2 =
      (serializeSpanFields names (extractSet names st m v) rest).2 from rfl]
    simp only [List.map_cons, List.nodup_cons] at hnd
    have hlen' : (extractSet names st m v).slots.length = names.length := by
      rw [extractSet_slots_length]; exact hlen
    rw [ih (extractSet names st m v) hnd.2 hlen']
    by_cases hmn : m = n
    · subst hmn
      have hrest : rest.lookup m = none := by
        refine lookup_eq_none m rest ?_
        intro p hp h
        exact hnd.1 (h ▸ List.mem_map_of_mem Prod.fst hp)
      rw [hrest, Option.none_or, slotVal_extractSet_self names st m v hn hlen]
      rw [List.lookup_cons]
      simp
    · rw [slotVal_extractSet_ne names st m n v hmn]
      rw [List.lookup_cons]
      have hb : (n == m) = false := beq_eq_false_iff_ne.mpr (fun h => hmn h.symm)
      simp only [hb]

end Logging

namespace Logging

theorem serializeSpans_snd_append (names : List String) :
    ∀ (l₁ l₂ : List SpanData) (st : ExtractState),
      (serializeSpans names st (l₁ ++ l₂)).2 =
        (serializeSpans names (serializeSpans names st l₁).2 l₂).2 := by
  intro l₁
  induction l₁ with
  | nil => intro l₂ st; rfl
  | cons sp rest ih =>
    intro l₂ st
    rw [List.cons_append]
    rw [show (serializeSpans names st (sp :: (rest ++ l₂))).2 =
      (serializeSpans names (serializeSpanFields names st sp.fields).2 (rest ++ l₂)).2
      from rfl]
    rw [ih l₂ (serializeSpanFields names st sp.fields).2]
    rfl

theorem serializeSpans_slots_length (names : List String) :
    ∀ (spans : List SpanData) (st : ExtractState),
      (serializeSpans names st spans).2.slots.length = st.slots.length := by
  intro spans
  induction spans with
  | nil => intro st; rfl
  | cons sp rest ih =>
    intro st
    rw [show (serializeSpans names st (sp :: rest)).2 =
      (serializeSpans names (serializeSpanFields names st sp.fields).2 rest).2 from rfl]
    rw [ih, serializeSpanFields_slots_length]

theorem serializeSpans_touched (names : List String) :
    ∀ (spans : List SpanData) (st : ExtractState),
      (serializeSpans names st spans).2.touched =
        (st.touched || spans.any (fun sp =>
          sp.fields.any (fun p => (names.findIdx? (fun x => x == p.1)).isSome))) := by
  intro spans
  induction spans with
  | nil => intro st; simp [serializeSpans]
  | cons sp rest ih =>
    intro st
    rw [show (serializeSpans names st (sp :: rest)).2 =
      (serializeSpans names (serializeSpanFields names st sp.fields).2 rest).2 from rfl]
    rw [ih, serializeSpanFields_touched]
    simp [Bool.or_assoc]

theorem serializeSpans_slotVal (names : List String) (n : String) (hn : n ∈ names) :
    ∀ (spans : List SpanData) (st : ExtractState),
      (∀ sp ∈ spans, (sp.fields.map Prod.fst).Nodup) →
      st.slots.length = names.length →
      slotVal names (serializeSpans names st spans).2.slots n =
        ((spans.filterMap (fun sp => sp.fields.lookup n)).getLast?).or
          (slotVal names st.slots n) := by
  intro spans
  induction spans using List.reverseRecOn with
  | nil => intro st _ _; simp [serializeSpans, Option.none_or]
  | append_singleton l sp ih =>
    intro st hnd hlen
    rw [serializeSpans_snd_append]
    rw [show (serializeSpans names (serializeSpans names st l).2 [sp]).2 =
      (serializeSpanFields names (serializeSpans names st l).2 sp.fields).2 from rfl]
    rw [serializeSpanFields_slotVal names n hn sp.fields _
      (hnd sp (by simp)) (by rw [serializeSpans_slots_length]; exact hlen)]
    rw [ih st (fun s hs => hnd s (by simp [hs])) hlen]
    rw [List.filterMap_append]
    cases hlook : sp.fields.lookup n with
    | some v =>
      rw [show List.filterMap (fun sp => sp.fields.lookup n) [sp] = [v] from by
        simp [hlook]]
      rw [List.getLast?_concat]
      rfl
    | none =>
      rw [show List.filterMap (fun sp => sp.fields.lookup n) [sp] = [] from by
        simp [hlook]]
      rw [List.append_nil, Option.none_or]

end Logging

namespace Logging

theorem zip_getElem? {α β : Type} :
    ∀ (l₁ : List α) (l₂ : List β) (i : Nat) (p : α × β),
      (l₁.zip l₂)[i]? = some p → l₁[i]? = some p.1 ∧ l₂[i]? = some p.2 := by
  intro l₁
  induction l₁ with
  | nil => intro l₂ i p h; simp at h
  | cons x xs ih =>
    intro l₂ i p h
    cases l₂ with
    | nil => simp at h
    | cons y ys =>
      cases i with
      | zero =>
        rw [show ((x :: xs).zip (y :: ys))[0]? = some (x, y) from by
          simp [List.zip_cons_cons]] at h
        have hpe := Option.some.inj h
        rw [← hpe]
        exact ⟨by simp, by simp⟩
      | succ i =>
        rw [show ((x :: xs).zip (y :: ys))[i + 1]? = (xs.zip ys)[i]? from by
          simp [List.zip_cons_cons]] at h
        obtain ⟨h1, h2⟩ := ih ys i p h
        exact ⟨by simpa using h1, by simpa using h2⟩

theorem serializeExtract_keys (names : List String) (slots : List (Option Json))
    (k : String) (v : Json) (h : (k, v) ∈ serializeExtract names slots) :
    k ∈ names := by
  unfold serializeExtract at h
  rw [List.mem_filterMap] at h
  obtain ⟨p, hp, hpv⟩ := h
  cases hp2 : p.2 with
  | none => rw [hp2] at hpv; exact Option.noConfusion hpv
  | some w =>
    rw [hp2] at hpv
    have hpk := Option.some.inj hpv
    have hk : p.1 = k := congrArg Prod.fst hpk
    rw [← hk]
    obtain ⟨p1, p2⟩ := p
    exact (List.of_mem_zip hp).1

theorem serializeExtract_values (names : List String) (slots : List (Option Json))
    (hnodup : names.Nodup) (k : String) (v : Json)
    (h : (k, v) ∈ serializeExtract names slots) :
    slotVal names slots k = some v := by
  unfold serializeExtract at h
  rw [List.mem_filterMap] at h
  obtain ⟨p, hp, hpv⟩ := h
  cases hp2 : p.2 with
  | none => rw [hp2] at hpv; exact Option.noConfusion hpv
  | some w =>
    rw [hp2] at hpv
    have hpk := Option.some.inj hpv
    have hk : p.1 = k := congrArg Prod.fst hpk
    have hw : w = v := congrArg Prod.snd hpk
    obtain ⟨i, hzip⟩ := List.mem_iff_getElem?.mp hp
    obtain ⟨h1, h2⟩ := zip_getElem? names slots i p hzip
    rw [hk] at h1
    rw [hp2, hw] at h2
    have hkmem : k ∈ names := List.mem_iff_getElem?.mpr ⟨i, h1⟩
    obtain ⟨i0, hi0⟩ := findIdx?_beq_isSome_of_mem names k 0 hkmem
    obtain ⟨hi0lt, hi0v⟩ := findIdx?_beq_value names k i0 hi0
    have hii : i0 = i := List.getElem?_inj hi0lt hnodup (by rw [hi0v, h1])
    unfold slotVal
    rw [hi0, hii]
    dsimp only
    rw [List.getD_eq_getElem?_getD, h2]
    rfl

/-- C8: the extract subobject's keys are a subset of the configured
extract names; each emitted value equals the innermost enclosing span's
value for that name along the current scope (last write wins walking root
to leaf); per configured name the final slot holds exactly the innermost
span value; and the `extract` key is emitted iff the buffer was touched,
which happens iff some enclosing span stores a field with a configured
name. The hypotheses record the map invariants of the source: each span's
field store has unique keys and the configured names form an `IndexSet`. -/
theorem extract_projection (inp : FormatInput)
    (hnd : ∀ sp ∈ inp.spans, (sp.fields.map Prod.fst).Nodup)
    (hnn : inp.extractNames.Nodup) :
    (∀ k v, (k, v) ∈ serializeExtract inp.extractNames (spansAndExtract inp).2.slots →
      k ∈ inp.extractNames) ∧
    (∀ k v, (k, v) ∈ serializeExtract inp.extractNames (spansAndExtract inp).2.slots →
      (inp.spans.filterMap (fun sp => sp.fields.lookup k)).getLast? = some v) ∧
    (∀ n, n ∈ inp.extractNames →
      slotVal inp.extractNames (spansAndExtract inp).2.slots n =
        (inp.spans.filterMap (fun sp => sp.fields.lookup n)).getLast?) ∧
    ((format inp).lookup "extract" =
      if (spansAndExtract inp).2.touched then
        some (objOf (serializeExtract inp.extractNames (spansAndExtract inp).2.slots))
      else none) ∧
    ((spansAndExtract inp).2.touched =
      inp.spans.any (fun sp => sp.fields.any (fun p => p.1 ∈ inp.extractNames))) := by
  have hslot : ∀ n, n ∈ inp.extractNames →
      slotVal inp.extractNames (spansAndExtract inp).2.slots n =
        (inp.spans.filterMap (fun sp => sp.fields.lookup n)).getLast? := by
    intro n hn
    unfold spansAndExtract
    rw [serializeSpans_slotVal inp.extractNames n hn inp.spans
      (initialExtract inp.extractNames) hnd (by simp [initialExtract])]
    rw [slotVal_initial, Option.or_none]
  refine ⟨?_, ?_, hslot, format_lookup_extract inp, ?_⟩
  · intro k v h
    exact serializeExtract_keys _ _ k v h
  · intro k v h
    have hk := serializeExtract_keys _ _ k v h
    have hv := serializeExtract_values _ _ hnn k v h
    rw [← hslot k hk]
    exact hv
  · unfold spansAndExtract
    rw [serializeSpans_touched]
    rw [show (initialExtract inp.extractNames).touched = false from rfl]
    rw [Bool.false_or]
    have hpt : ∀ m : String,
        ((inp.extractNames.findIdx? (fun x => x == m)).isSome : Bool) =
          decide (m ∈ inp.extractNames) := by
      intro m
      cases hm : (inp.extractNames.findIdx? (fun x => x == m)).isSome with
      | true =>
        have hmem := (findIdx?_beq_isSome_iff_mem inp.extractNames m).mp hm
        simp [hmem]
      | false =>
        have hnm : ¬ m ∈ inp.extractNames := by
          intro hmem
          rw [(findIdx?_beq_isSome_iff_mem inp.extractNames m).mpr hmem] at hm
          exact Bool.noConfusion hm
        simp [hnm]
    simp only [hpt]

/-- An outer and an inner span both recording `request_id`; the inner one
must win in the extract projection. -/
def sampleExtractInput : FormatInput :=
  ⟨"t", "INFO", [], none,
   [⟨"outer", 1, [("request_id", Json.str "r")]⟩,
    ⟨"inner", 2, [("request_id", Json.str "r2"), ("x", Json.num 1)]⟩],
   ["request_id", "session_id", "conn_id"], 1234, 42, none, none, "svc",
   none, none, none, none⟩

theorem extract_projection_witness :
    (∀ sp ∈ sampleExtractInput.spans, (sp.fields.map Prod.fst).Nodup) ∧
    sampleExtractInput.extractNames.Nodup ∧
    ((∀ k v, (k, v) ∈ serializeExtract sampleExtractInput.extractNames
        (spansAndExtract sampleExtractInput).2.slots →
      k ∈ sampleExtractInput.extractNames) ∧
    (∀ k v, (k, v) ∈ serializeExtract sampleExtractInput.extractNames
        (spansAndExtract sampleExtractInput).2.slots →
      (sampleExtractInput.spans.filterMap
        (fun sp => sp.fields.lookup k)).getLast? = some v) ∧
    (∀ n, n ∈ sampleExtractInput.extractNames →
      slotVal sampleExtractInput.extractNames
          (spansAndExtract sampleExtractInput).2.slots n =
        (sampleExtractInput.spans.filterMap
          (fun sp => sp.fields.lookup n)).getLast?) ∧
    ((format sampleExtractInput).lookup "extract" =
      if (spansAndExtract sampleExtractInput).2.touched then
        some (objOf (serializeExtract sampleExtractInput.extractNames
          (spansAndExtract sampleExtractInput).2.slots))
      else none) ∧
    ((spansAndExtract sampleExtractInput).2.touched =
      sampleExtractInput.spans.any (fun sp =>
        sp.fields.any (fun p => p.1 ∈ sampleExtractInput.extractNames)))) :=
  ⟨by decide, by decide,
   extract_projection sampleExtractInput (by decide) (by decide)⟩

end Logging
